import Mathlib

/-
Verification development for the traversal-clause validator
(src/src/validator/TraversalValidator.cpp).

The validator itself (validateStarts, validateOver, validateStep and the
plan-fragment / loop-condition builders) is embedded directly from the
source file.  External collaborators that the source calls but that live
outside this repository slice (the expression evaluation engine, the
schema catalog, SchemaUtil, the type-deduction service) are modelled from
the spec, as marked on each definition.
-/

namespace NebulaGraph

/-- Runtime values, a restriction of the source's Value class to the kinds
this validator manipulates: the empty sentinel, null, booleans, 64-bit
integers, strings and list-shaped collections. -/
inductive Value where
  | empty : Value
  | null : Value
  | b (v : Bool) : Value
  | i (v : Int) : Value
  | s (v : String) : Value
  | lst (v : List Value) : Value

mutual

/-- Structural decidable equality on values (the nested list forces a
hand-written instance). -/
def Value.decEq : (a b : Value) → Decidable (a = b)
  | .empty, .empty => isTrue rfl
  | .null, .null => isTrue rfl
  | .b x, .b y =>
    if h : x = y then isTrue (h ▸ rfl) else isFalse (fun hh => h (Value.b.inj hh))
  | .i x, .i y =>
    if h : x = y then isTrue (h ▸ rfl) else isFalse (fun hh => h (Value.i.inj hh))
  | .s x, .s y =>
    if h : x = y then isTrue (h ▸ rfl) else isFalse (fun hh => h (Value.s.inj hh))
  | .lst xs, .lst ys =>
    match Value.decEqList xs ys with
    | isTrue h => isTrue (h ▸ rfl)
    | isFalse h => isFalse (fun hh => h (Value.lst.inj hh))
  | .empty, .null | .empty, .b _ | .empty, .i _ | .empty, .s _ | .empty, .lst _
  | .null, .empty | .null, .b _ | .null, .i _ | .null, .s _ | .null, .lst _
  | .b _, .empty | .b _, .null | .b _, .i _ | .b _, .s _ | .b _, .lst _
  | .i _, .empty | .i _, .null | .i _, .b _ | .i _, .s _ | .i _, .lst _
  | .s _, .empty | .s _, .null | .s _, .b _ | .s _, .i _ | .s _, .lst _
  | .lst _, .empty | .lst _, .null | .lst _, .b _ | .lst _, .i _ | .lst _, .s _ =>
    isFalse (fun h => Value.noConfusion h)

/-- Decidable equality on lists of values, elementwise via Value.decEq. -/
def Value.decEqList : (a b : List Value) → Decidable (a = b)
  | [], [] => isTrue rfl
  | x :: xs, y :: ys =>
    match Value.decEq x y, Value.decEqList xs ys with
    | isTrue h1, isTrue h2 => isTrue (by rw [h1, h2])
    | isFalse h1, _ => isFalse (fun hh => h1 (List.cons.inj hh).1)
    | isTrue _, isFalse h2 => isFalse (fun hh => h2 (List.cons.inj hh).2)
  | [], _ :: _ => isFalse (fun h => List.noConfusion h)
  | _ :: _, [] => isFalse (fun h => List.noConfusion h)

end

instance : DecidableEq Value := Value.decEq

/-- Value type tags, mirroring Value::Type for the kinds above. -/
inductive ValueType where
  | boolT | intT | strT | listT | emptyT | nullT
deriving DecidableEq

/-- Modelled from the spec: rendering of a value type, as streamed into the
type-mismatch error message by operator<<. -/
def valueTypeToString : ValueType → String
  | .boolT => "BOOL"
  | .intT => "INT"
  | .strT => "STRING"
  | .listT => "LIST"
  | .emptyT => "__EMPTY__"
  | .nullT => "NULL"

/-- Schema property types a space may declare for its vertex ids. -/
inductive PropertyType where
  | int64 | fixedString
deriving DecidableEq

/-- Modelled from the spec: SchemaUtil::propTypeToValueType, the value type
corresponding to a schema-declared vertex-id property type. -/
def propTypeToValueType : PropertyType → ValueType
  | .int64 => .intT
  | .fixedString => .strT

/-- Modelled from the spec: apache thrift enumNameSafe on the vertex-id
property type, as used in error messages. -/
def enumNameSafe : PropertyType → String
  | .int64 => "INT64"
  | .fixedString => "FIXED_STRING"

/-- Expression trees, a restriction of the source's polymorphic Expression
class hierarchy to the node kinds this validator builds or inspects:
constants, variables, pre-increment, the relational kinds LE / NE / EQ,
logical OR, the size() function call, and input / variable property
references. -/
inductive Expression where
  | constant (v : Value) : Expression
  | varE (name : String) : Expression
  | unaryIncr (operand : Expression) : Expression
  | relLE (lhs rhs : Expression) : Expression
  | relNE (lhs rhs : Expression) : Expression
  | relEQ (lhs rhs : Expression) : Expression
  | logicalOr (lhs rhs : Expression) : Expression
  | fnSize (arg : Expression) : Expression
  | inputProperty (prop : String) : Expression
  | varProperty (sym prop : String) : Expression
deriving DecidableEq

/-- Expression kind tags, mirroring Expression::Kind for the nodes above. -/
inductive ExprKind where
  | kConstant | kVar | kUnaryIncr | kRelLE | kRelNE | kRelEQ
  | kLogicalOr | kFunctionCall | kInputProperty | kVarProperty
deriving DecidableEq

/-- The kind() accessor of an expression node. -/
def Expression.kind : Expression → ExprKind
  | .constant _ => .kConstant
  | .varE _ => .kVar
  | .unaryIncr _ => .kUnaryIncr
  | .relLE _ _ => .kRelLE
  | .relNE _ _ => .kRelNE
  | .relEQ _ _ => .kRelEQ
  | .logicalOr _ _ => .kLogicalOr
  | .fnSize _ => .kFunctionCall
  | .inputProperty _ => .kInputProperty
  | .varProperty _ _ => .kVarProperty

/-- Modelled from the spec: rendering of a value into source text, used
inside expression rendering. -/
def Value.render : Value → String
  | .empty => "__EMPTY__"
  | .null => "NULL"
  | .b true => "true"
  | .b false => "false"
  | .i v => toString v
  | .s v => v
  | .lst _ => "[...]"

/-- Modelled from the spec: Expression::toString, the rendered source text
of an expression used in error messages. -/
def Expression.render : Expression → String
  | .constant v => v.render
  | .varE name => "$" ++ name
  | .unaryIncr e => "++" ++ e.render
  | .relLE l r => "(" ++ l.render ++ "<=" ++ r.render ++ ")"
  | .relNE l r => "(" ++ l.render ++ "!=" ++ r.render ++ ")"
  | .relEQ l r => "(" ++ l.render ++ "==" ++ r.render ++ ")"
  | .logicalOr l r => "(" ++ l.render ++ " OR " ++ r.render ++ ")"
  | .fnSize a => "size(" ++ a.render ++ ")"
  | .inputProperty p => "$-." ++ p
  | .varProperty sym p => "$" ++ sym ++ "." ++ p

/-- The sym() accessor of a property expression (the bound variable name);
only meaningful for variable-property nodes. -/
def Expression.sym : Expression → String
  | .varProperty sym _ => sym
  | _ => ""

/-- The prop() accessor of a property expression (the referenced column);
only meaningful for property nodes. -/
def Expression.prop : Expression → String
  | .inputProperty p => p
  | .varProperty _ p => p
  | _ => ""

/-- The execution context's variable store: a name-to-value map with
insert-at-front update. -/
def ExecutionContext := List (String × Value)

/-- setValue of the execution context: bind a name to a value. -/
def ExecutionContext.setValue (ctx : ExecutionContext) (name : String) (v : Value) :
    ExecutionContext :=
  (name, v) :: ctx

/-- getValue of the execution context: an unbound variable reads as the
empty sentinel value. -/
def ExecutionContext.getValue : ExecutionContext → String → Value
  | [], _ => .empty
  | (n, v) :: rest, name => if n = name then v else ExecutionContext.getValue rest name

/-- Modelled from the spec: Kleene disjunction over runtime values, the
semantics of a logical-OR node. -/
def orValue : Value → Value → Value
  | .b true, _ => .b true
  | _, .b true => .b true
  | .b _, .b _ => .b false
  | _, _ => .null

/-- Modelled from the spec: the external expression evaluation engine.
Evaluation threads the execution context because pre-increment both reads
and writes its operand variable; relational nodes evaluate left before
right; size() is defined on list-shaped collections; ill-typed operations
produce null. -/
def eval : Expression → ExecutionContext → Value × ExecutionContext
  | .constant v, ctx => (v, ctx)
  | .varE name, ctx => (ctx.getValue name, ctx)
  | .unaryIncr operand, ctx =>
    match operand with
    | .varE name =>
      match ctx.getValue name with
      | .i v => (.i (v + 1), ctx.setValue name (.i (v + 1)))
      | _ => (.null, ctx)
    | _ => (.null, ctx)
  | .relLE lhs rhs, ctx =>
    let lr := eval lhs ctx
    let rr := eval rhs lr.2
    (match lr.1, rr.1 with
     | .i a, .i b => .b (decide (a ≤ b))
     | _, _ => .null, rr.2)
  | .relNE lhs rhs, ctx =>
    let lr := eval lhs ctx
    let rr := eval rhs lr.2
    (match lr.1, rr.1 with
     | .i a, .i b => .b (decide (a ≠ b))
     | _, _ => .null, rr.2)
  | .relEQ lhs rhs, ctx =>
    let lr := eval lhs ctx
    let rr := eval rhs lr.2
    (.b (decide (lr.1 = rr.1)), rr.2)
  | .logicalOr lhs rhs, ctx =>
    let lr := eval lhs ctx
    let rr := eval rhs lr.2
    (orValue lr.1 rr.1, rr.2)
  | .fnSize arg, ctx =>
    let ar := eval arg ctx
    (match ar.1 with
     | .lst xs => .i xs.length
     | _ => .null, ar.2)
  | .inputProperty _, ctx => (.null, ctx)
  | .varProperty _ _, ctx => (.null, ctx)

/-- Repeated evaluation of a loop-condition expression, threading the
execution context: evalIter e ctx k is the result of the k-th evaluation
(k starting at 1) together with the context after it. -/
def evalIter (e : Expression) (ctx : ExecutionContext) : Nat → Value × ExecutionContext
  | 0 => (.empty, ctx)
  | k + 1 => eval e (evalIter e ctx k).2

/-- Reinterpretation of an unsigned integer as a signed 32-bit integer:
the semantics of the static_cast to int32_t on the step count. -/
def toInt32 (n : Nat) : Int :=
  if n % 2 ^ 32 < 2 ^ 31 then ((n % 2 ^ 32 : Nat) : Int)
  else ((n % 2 ^ 32 : Nat) : Int) - 2 ^ 32

/-- TraversalValidator::buildNStepLoopCondition: sets the reserved loop
counter to 0 in the execution context and returns the expression
"++loopSteps <= (int32_t) steps".  The uint32 parameter is a natural
number reduced mod 2^32 inside toInt32. -/
def buildNStepLoopCondition (steps : Nat) (loopSteps : String) (ectx : ExecutionContext) :
    Expression × ExecutionContext :=
  (Expression.relLE (.unaryIncr (.varE loopSteps)) (.constant (.i (toInt32 steps))),
   ectx.setValue loopSteps (.i 0))

/-- TraversalValidator::buildExpandEndCondition: returns the expression
"lastStepResult == empty OR size(lastStepResult) != 0". -/
def buildExpandEndCondition (lastStepResult : String) : Expression :=
  Expression.logicalOr
    (.relEQ (.varE lastStepResult) (.constant .empty))
    (.relNE (.fnSize (.varE lastStepResult)) (.constant (.i 0)))

/-- Status of a validator call: OK, a semantic error carrying a message
(Status::SemanticError), or some other non-OK status propagated verbatim
from a collaborator (NG_RETURN_IF_ERROR / type.status()). -/
inductive Status where
  | ok : Status
  | semanticError (msg : String) : Status
  | error (msg : String) : Status
deriving DecidableEq

/-- Modelled from the spec: the external collaborators called by the
validator but defined outside this repository slice — the expression
type-deduction service (deduceExprType), constant-foldability test and
constant folding (evaluableExpr / eval without a row context),
SchemaUtil::isValidVid, and the schema catalog (getAllEdge, toEdgeType).
A fallible collaborator returns Except String: the error payload is the
message of the necessarily non-OK status it produced. -/
structure Env where
  deduceExprType : Expression → Except String ValueType
  evaluableExpr : Expression → Bool
  evalConst : Expression → Value
  isValidVid : Value → PropertyType → Bool
  getAllEdge : Nat → Except String (List String)
  toEdgeType : Nat → String → Except String Int

/-- The target space: id, name and schema-declared vertex-id type
(space_.id, space_.name, space_.spaceDesc.vid_type). -/
structure SpaceInfo where
  id : Nat
  name : String
  vidType : PropertyType
deriving DecidableEq

/-- Origin kind of a traversal's start set (FromType in the source). -/
inductive FromType where
  | kInstantExpr | kPipe | kVariable
deriving DecidableEq

/-- The Starts output structure filled in by validateStarts. -/
structure Starts where
  fromType : FromType
  originalSrc : Option Expression
  userDefinedVarName : String
  firstBeginningSrcVidColName : String
  vids : List Value
  src : Option Expression
deriving DecidableEq

/-- A FROM clause: either a runtime reference expression (isRef) or a list
of literal vertex-id expressions (vidList). -/
inductive VerticesClause where
  | ref (src : Expression) : VerticesClause
  | vidList (exprs : List Expression) : VerticesClause
deriving DecidableEq

/-- The loop of the literal-vid branch of validateStarts: each element must
be constant-evaluable and fold to a valid vertex id; folded values are
appended to starts.vids in clause order; the first offending element stops
the loop with a semantic error, leaving the values appended so far. -/
def foldVids (env : Env) (space : SpaceInfo) : List Expression → Starts → Status × Starts
  | [], starts => (.ok, starts)
  | expr :: rest, starts =>
    if env.evaluableExpr expr then
      let vid := env.evalConst expr
      if env.isValidVid vid space.vidType then
        foldVids env space rest { starts with vids := starts.vids ++ [vid] }
      else
        (.semanticError ("Vid should be a " ++ enumNameSafe space.vidType), starts)
    else
      (.semanticError ("`" ++ expr.render ++ "' is not an evaluable expression."), starts)

/-- TraversalValidator::validateStarts.  The in-out `starts` argument and
the validator's userDefinedVarNameList_ member are threaded explicitly;
the returned triple is (status, starts after the call, variable-name list
after the call), so that mutation already performed on a failing path is
visible exactly as in the source. -/
def validateStarts (env : Env) (space : SpaceInfo) (clause : Option VerticesClause)
    (starts : Starts) (userDefinedVarNameList : List String) :
    Status × Starts × List String :=
  match clause with
  | none => (.semanticError "From clause nullptr.", starts, userDefinedVarNameList)
  | some (.ref src) =>
    if src.kind ≠ ExprKind.kInputProperty ∧ src.kind ≠ ExprKind.kVarProperty then
      (.semanticError ("`" ++ src.render ++ "', Only input and variable expression is" ++
        " acceptable when starts are evaluated at runtime."), starts, userDefinedVarNameList)
    else
      let starts1 := { starts with
        fromType := if src.kind = ExprKind.kInputProperty then FromType.kPipe else FromType.kVariable }
      match env.deduceExprType src with
      | .error st => (Status.error st, starts1, userDefinedVarNameList)
      | .ok ty =>
        if ty ≠ propTypeToValueType space.vidType then
          (.semanticError ("`" ++ src.render ++ "', the srcs should be type of " ++
            enumNameSafe space.vidType ++ ", but was`" ++ valueTypeToString ty ++ "'"),
           starts1, userDefinedVarNameList)
        else
          let starts2 := { starts1 with originalSrc := some src }
          let starts3 :=
            if starts2.fromType = FromType.kVariable then
              { starts2 with userDefinedVarName := src.sym }
            else starts2
          let varList1 :=
            if starts2.fromType = FromType.kVariable then
              userDefinedVarNameList ++ [src.sym]
            else userDefinedVarNameList
          (.ok, { starts3 with firstBeginningSrcVidColName := src.prop }, varList1)
  | some (.vidList exprs) =>
    let r := foldVids env space exprs starts
    (r.1, r.2, userDefinedVarNameList)

/-- Edge traversal direction, copied verbatim from the clause. -/
inductive Direction where
  | outEdge | inEdge | bothEdge
deriving DecidableEq

/-- An OVER clause: direction, the wildcard flag (OVER *), and the edge
names listed in the explicit form. -/
structure OverClauseData where
  direction : Direction
  isOverAll : Bool
  edges : List String
deriving DecidableEq

/-- The Over output structure filled in by validateOver. -/
structure Over where
  direction : Direction
  edgeTypes : List Int
  allEdges : List String
  isOverAll : Bool
deriving DecidableEq

/-- The edge-resolution loop of validateOver: resolves each name through
the catalog and appends the resolved type id to over.edgeTypes in order;
the first unresolvable name stops the loop with a semantic error whose
format depends on the branch (wildcard loop quotes the names, the
explicit loop does not), leaving ids appended so far. -/
def resolveEdgeTypes (env : Env) (space : SpaceInfo) (wildcard : Bool) :
    List String → Over → Status × Over
  | [], over => (.ok, over)
  | name :: rest, over =>
    match env.toEdgeType space.id name with
    | .error _ =>
      (.semanticError (if wildcard then
          "`" ++ name ++ "' not found in space [`" ++ space.name ++ "']."
        else
          name ++ " not found in space [" ++ space.name ++ "]."), over)
    | .ok edgeType =>
      resolveEdgeTypes env space wildcard rest
        { over with edgeTypes := over.edgeTypes ++ [edgeType] }

/-- TraversalValidator::validateOver.  The in-out `over` argument is
threaded explicitly; the returned pair is (status, over after the call). -/
def validateOver (env : Env) (space : SpaceInfo) (clause : Option OverClauseData)
    (over : Over) : Status × Over :=
  match clause with
  | none => (.semanticError "Over clause nullptr.", over)
  | some c =>
    let over1 := { over with direction := c.direction }
    if c.isOverAll then
      match env.getAllEdge space.id with
      | .error st => (Status.error st, over1)
      | .ok edges =>
        if edges = [] then
          (.semanticError ("No edge type found in space `" ++ space.name ++ "'"), over1)
        else
          match resolveEdgeTypes env space true edges over1 with
          | (.ok, over2) => (.ok, { over2 with allEdges := edges, isOverAll := true })
          | (st, over2) => (st, over2)
    else
      resolveEdgeTypes env space false c.edges over1

/-- The STEPS clause.  Modelled from the spec for the accessors whose
header is not in the repository slice: a fixed single-value clause of
value k carries mSteps = nSteps = k with isMToN = false; a range clause
lower..upper carries mSteps = lower, nSteps = upper with isMToN = true. -/
structure StepClause where
  mSteps : Nat
  nSteps : Nat
  isMToN : Bool
deriving DecidableEq

/-- Modelled from the spec: StepClause::toString, the rendered source text
of a step clause used in the bound-violation error message. -/
def StepClause.render (c : StepClause) : String :=
  if c.isMToN then toString c.mSteps ++ " TO " ++ toString c.nSteps ++ " STEPS"
  else toString c.nSteps ++ " STEPS"

/-- TraversalValidator::validateStep.  The in-out `step` argument is
threaded explicitly; the returned pair is (status, step after the call):
the clause is copied into `step`, then only the M-to-N range form gets the
zero-lower-bound normalization and the upper-vs-lower bound check. -/
def validateStep (clause : Option StepClause) (step : StepClause) : Status × StepClause :=
  match clause with
  | none => (.semanticError "Step clause nullptr.", step)
  | some c =>
    if c.isMToN then
      let step1 := if c.mSteps = 0 then { c with mSteps := 1 } else c
      if step1.nSteps < step1.mSteps then
        (.semanticError ("`" ++ step1.render ++
          "', upper bound steps should be greater than lower bound."), step1)
      else
        (.ok, step1)
    else
      (.ok, c)

/-- The resolved edge-type id of a name under an environment, defaulting to
0 on names the catalog does not know (only used under a hypothesis that
resolution succeeds). -/
def edgeTypeOf (env : Env) (space : SpaceInfo) (name : String) : Int :=
  match env.toEdgeType space.id name with
  | .ok t => t
  | .error _ => 0

/-- A concrete environment for exercising the validator on closed inputs:
constants are evaluable and fold to themselves, property references have
deduced type INT, integer values are valid INT64 vertex ids and string
values valid FIXED_STRING ids, and the catalog of space 1 holds the edges
"follow" (type id 2) and "like" (type id 3). -/
def testEnv : Env where
  deduceExprType := fun e =>
    match e.kind with
    | .kInputProperty => .ok .intT
    | .kVarProperty => .ok .intT
    | _ => .error "not a property reference"
  evaluableExpr := fun e =>
    match e with
    | .constant _ => true
    | _ => false
  evalConst := fun e =>
    match e with
    | .constant v => v
    | _ => .null
  isValidVid := fun v t =>
    match v, t with
    | .i _, .int64 => true
    | .s _, .fixedString => true
    | _, _ => false
  getAllEdge := fun id =>
    if id = 1 then .ok ["follow", "like"] else .error "space not found"
  toEdgeType := fun id name =>
    if id = 1 ∧ name = "follow" then .ok 2
    else if id = 1 ∧ name = "like" then .ok 3
    else .error "edge not found"

/-- A concrete space whose vertex-id type is INT64. -/
def testSpace : SpaceInfo := ⟨1, "test_space", .int64⟩

/-- A freshly constructed Starts record, as a caller passes it in. -/
def emptyStarts : Starts := ⟨.kInstantExpr, none, "", "", [], none⟩

/-- A freshly constructed Over record, as a caller passes it in. -/
def emptyOver : Over := ⟨.outEdge, [], [], false⟩

theorem getValue_setValue (ctx : ExecutionContext) (name : String) (v : Value) :
    (ctx.setValue name v).getValue name = v := by
  simp [ExecutionContext.setValue, ExecutionContext.getValue]

theorem eval_nstep_cond (v : String) (bound : Int) (ctx : ExecutionContext) (cnt : Int)
    (h : ctx.getValue v = Value.i cnt) :
    eval (Expression.relLE (.unaryIncr (.varE v)) (.constant (.i bound))) ctx =
      (Value.b (decide (cnt + 1 ≤ bound)), ctx.setValue v (Value.i (cnt + 1))) := by
  simp [eval, h]

theorem evalIter_nstep (v : String) (bound : Int) (ctx0 : ExecutionContext)
    (h0 : ctx0.getValue v = Value.i 0) (k : Nat) :
    (evalIter (Expression.relLE (.unaryIncr (.varE v)) (.constant (.i bound))) ctx0 k).2.getValue v
      = Value.i k ∧
    (1 ≤ k →
      (evalIter (Expression.relLE (.unaryIncr (.varE v)) (.constant (.i bound))) ctx0 k).1
        = Value.b (decide ((k : Int) ≤ bound))) := by
  induction k with
  | zero => exact ⟨by simpa [evalIter] using h0, fun h => absurd h (by norm_num)⟩
  | succ k ih =>
    have hcast : (k : Int) + 1 = ((k + 1 : Nat) : Int) := by push_cast; ring
    constructor
    · rw [evalIter, eval_nstep_cond v bound _ k ih.1, getValue_setValue, hcast]
    · intro _
      rw [evalIter, eval_nstep_cond v bound _ k ih.1, hcast]

theorem toInt32_small (n : Nat) (h : n < 2 ^ 31) : toInt32 n = n := by
  unfold toInt32
  rw [Nat.mod_eq_of_lt (lt_trans h (by norm_num)), if_pos h]

theorem toInt32_large (n : Nat) (h1 : 2 ^ 31 ≤ n) (h2 : n < 2 ^ 32) :
    toInt32 n = (n : Int) - 2 ^ 32 := by
  unfold toInt32
  rw [Nat.mod_eq_of_lt h2, if_neg (by omega)]

/-- C1 (amended: the step count must be below 2^31, because the source
casts it to a signed 32-bit constant): buildNStepLoopCondition(n) binds
the reserved loop-counter variable to 0 in the execution context and
returns the expression "pre-increment(loop counter) <= n"; evaluated once
per loop pass starting from counter 0, the expression yields true on the
1st through n-th evaluations and false from the (n+1)-th onward. -/
theorem C1_bounded_loop_condition (n : Nat) (hn : n < 2 ^ 31) (v : String)
    (ectx : ExecutionContext) (k : Nat) :
    (buildNStepLoopCondition n v ectx).1 =
      Expression.relLE (.unaryIncr (.varE v)) (.constant (.i (n : Int))) ∧
    (buildNStepLoopCondition n v ectx).2.getValue v = Value.i 0 ∧
    (1 ≤ k → k ≤ n →
      (evalIter (buildNStepLoopCondition n v ectx).1 (buildNStepLoopCondition n v ectx).2 k).1 =
        Value.b true) ∧
    (n < k →
      (evalIter (buildNStepLoopCondition n v ectx).1 (buildNStepLoopCondition n v ectx).2 k).1 =
        Value.b false) := by
  have hexpr : (buildNStepLoopCondition n v ectx).1 =
      Expression.relLE (.unaryIncr (.varE v)) (.constant (.i (n : Int))) := by
    simp [buildNStepLoopCondition, toInt32_small n hn]
  have hctx : (buildNStepLoopCondition n v ectx).2.getValue v = Value.i 0 :=
    getValue_setValue ectx v (Value.i 0)
  refine ⟨hexpr, hctx, ?_, ?_⟩
  · intro hk1 hkn
    rw [hexpr]
    rw [(evalIter_nstep v (n : Int) _ hctx k).2 hk1]
    have hle : (k : Int) ≤ (n : Int) := by exact_mod_cast hkn
    rw [decide_eq_true hle]
  · intro hnk
    have hk1 : 1 ≤ k := by omega
    rw [hexpr]
    rw [(evalIter_nstep v (n : Int) _ hctx k).2 hk1]
    have hle : ¬ ((k : Int) ≤ (n : Int)) := by exact_mod_cast Nat.not_le.mpr hnk
    rw [decide_eq_false hle]

theorem C1_bounded_loop_condition_witness :
    (1 : Nat) ≤ 2 ∧ (2 : Nat) ≤ 3 ∧
    (evalIter (buildNStepLoopCondition 3 "loopSteps" ([] : ExecutionContext)).1
      (buildNStepLoopCondition 3 "loopSteps" ([] : ExecutionContext)).2 2).1 = Value.b true :=
  ⟨by norm_num, by norm_num,
    (C1_bounded_loop_condition 3 (by norm_num) "loopSteps" [] 2).2.2.1 (by norm_num) (by norm_num)⟩

/-- C1 counterexample: the claim quantifies over every step count, but at
steps = 2^31 the loop-counter bound 2^31 is at least 1 while the very
first evaluation of the built condition is already false. -/
theorem C1_counterexample :
    1 ≤ 2 ^ 31 ∧
    (evalIter (buildNStepLoopCondition (2 ^ 31) "loopSteps" ([] : ExecutionContext)).1
      (buildNStepLoopCondition (2 ^ 31) "loopSteps" ([] : ExecutionContext)).2 1).1 =
      Value.b false := by
  constructor
  · norm_num
  · decide

/-- C10: buildNStepLoopCondition embeds its unsigned 32-bit step count in
the returned comparison as that value reinterpreted as a signed 32-bit
constant, so for every n with 2^31 <= n < 2^32 the embedded bound is
negative and the bounded loop condition is false on its very first
evaluation. -/
theorem C10_uint32_cast_negative_bound (n : Nat) (h1 : 2 ^ 31 ≤ n) (h2 : n < 2 ^ 32)
    (v : String) (ectx : ExecutionContext) :
    (buildNStepLoopCondition n v ectx).1 =
      Expression.relLE (.unaryIncr (.varE v)) (.constant (.i (toInt32 n))) ∧
    toInt32 n = (n : Int) - 2 ^ 32 ∧
    toInt32 n < 0 ∧
    (evalIter (buildNStepLoopCondition n v ectx).1 (buildNStepLoopCondition n v ectx).2 1).1 =
      Value.b false := by
  have hneg : toInt32 n < 0 := by
    rw [toInt32_large n h1 h2]
    have : (n : Int) < 2 ^ 32 := by exact_mod_cast h2
    omega
  have hctx : (buildNStepLoopCondition n v ectx).2.getValue v = Value.i 0 :=
    getValue_setValue ectx v (Value.i 0)
  refine ⟨rfl, toInt32_large n h1 h2, hneg, ?_⟩
  rw [show (buildNStepLoopCondition n v ectx).1 =
      Expression.relLE (.unaryIncr (.varE v)) (.constant (.i (toInt32 n))) from rfl]
  rw [(evalIter_nstep v (toInt32 n) _ hctx 1).2 (by norm_num)]
  have hle : ¬ (((1 : Nat) : Int) ≤ toInt32 n) := by push_cast; omega
  rw [decide_eq_false hle]

theorem C10_uint32_cast_negative_bound_witness :
    2 ^ 31 ≤ 2 ^ 31 + 5 ∧ 2 ^ 31 + 5 < 2 ^ 32 ∧ toInt32 (2 ^ 31 + 5) < 0 :=
  ⟨by norm_num, by norm_num,
    (C10_uint32_cast_negative_bound (2 ^ 31 + 5) (by norm_num) (by norm_num) "s" []).2.2.1⟩

theorem orValue_false_b (d : Bool) : orValue (Value.b false) (Value.b d) = Value.b d := by
  cases d <;> rfl

/-- C9: buildExpandEndCondition(v) returns the expression
"v == empty-value OR size(v) != 0", and that expression evaluates to true
when v is not yet written (holds the sentinel empty value) or holds a
collection of non-zero size, and to false only when v holds an explicitly
zero-size collection. -/
theorem C9_expand_end_condition (v : String) (ctx : ExecutionContext) :
    buildExpandEndCondition v =
      Expression.logicalOr (.relEQ (.varE v) (.constant .empty))
        (.relNE (.fnSize (.varE v)) (.constant (.i 0))) ∧
    (ctx.getValue v = Value.empty → (eval (buildExpandEndCondition v) ctx).1 = Value.b true) ∧
    (∀ xs : List Value, ctx.getValue v = Value.lst xs →
      (eval (buildExpandEndCondition v) ctx).1 = Value.b (decide (xs.length ≠ 0))) ∧
    ((eval (buildExpandEndCondition v) ctx).1 = Value.b false →
      ctx.getValue v = Value.lst []) := by
  have hEmptyCase : ctx.getValue v = Value.empty →
      (eval (buildExpandEndCondition v) ctx).1 = Value.b true := by
    intro h
    simp [buildExpandEndCondition, eval, h, orValue]
  have hLstCase : ∀ xs, ctx.getValue v = Value.lst xs →
      (eval (buildExpandEndCondition v) ctx).1 = Value.b (decide (xs.length ≠ 0)) := by
    intro xs h
    simp only [buildExpandEndCondition, eval, h]
    rw [decide_eq_false (fun hh => Value.noConfusion hh : ¬ (Value.lst xs = Value.empty))]
    rw [orValue_false_b]
    congr 1
    rw [decide_eq_decide]
    exact_mod_cast Iff.rfl
  have hNullCase : ∀ val, ctx.getValue v = val → val ≠ Value.empty →
      (∀ xs, val ≠ Value.lst xs) →
      (eval (buildExpandEndCondition v) ctx).1 = Value.null := by
    intro val hval h1 h2
    cases val with
    | empty => exact absurd rfl h1
    | lst xs => exact absurd rfl (h2 xs)
    | null =>
      simp only [buildExpandEndCondition, eval, hval]
      rw [decide_eq_false (fun hh => Value.noConfusion hh : ¬ (Value.null = Value.empty))]
      rfl
    | b x =>
      simp only [buildExpandEndCondition, eval, hval]
      rw [decide_eq_false (fun hh => Value.noConfusion hh : ¬ (Value.b x = Value.empty))]
      rfl
    | i x =>
      simp only [buildExpandEndCondition, eval, hval]
      rw [decide_eq_false (fun hh => Value.noConfusion hh : ¬ (Value.i x = Value.empty))]
      rfl
    | s x =>
      simp only [buildExpandEndCondition, eval, hval]
      rw [decide_eq_false (fun hh => Value.noConfusion hh : ¬ (Value.s x = Value.empty))]
      rfl
  refine ⟨rfl, hEmptyCase, hLstCase, ?_⟩
  intro h
  rcases hval : ctx.getValue v with _ | _ | x | x | x | xs
  · rw [hEmptyCase hval] at h
    exact absurd (Value.b.inj h) (by simp)
  · rw [hNullCase _ hval (fun hh => Value.noConfusion hh) (fun xs hh => Value.noConfusion hh)] at h
    exact absurd h (fun hh => Value.noConfusion hh)
  · rw [hNullCase _ hval (fun hh => Value.noConfusion hh) (fun xs hh => Value.noConfusion hh)] at h
    exact absurd h (fun hh => Value.noConfusion hh)
  · rw [hNullCase _ hval (fun hh => Value.noConfusion hh) (fun xs hh => Value.noConfusion hh)] at h
    exact absurd h (fun hh => Value.noConfusion hh)
  · rw [hNullCase _ hval (fun hh => Value.noConfusion hh) (fun xs hh => Value.noConfusion hh)] at h
    exact absurd h (fun hh => Value.noConfusion hh)
  · rw [hLstCase xs hval] at h
    have hd : decide (xs.length ≠ 0) = false := Value.b.inj h
    have hlen : xs.length = 0 := by simpa using of_decide_eq_false hd
    rw [List.length_eq_zero.mp hlen]

theorem C9_expand_end_condition_witness :
    (eval (buildExpandEndCondition "lastStepResult") ([] : ExecutionContext)).1 = Value.b true :=
  (C9_expand_end_condition "lastStepResult" []).2.1 rfl

theorem foldVids_allValid (env : Env) (space : SpaceInfo) (exprs : List Expression) :
    ∀ starts : Starts,
      (∀ e ∈ exprs, env.evaluableExpr e = true ∧
        env.isValidVid (env.evalConst e) space.vidType = true) →
      foldVids env space exprs starts =
        (Status.ok, { starts with vids := starts.vids ++ exprs.map env.evalConst }) := by
  induction exprs with
  | nil => intro starts _; simp [foldVids]
  | cons e rest ih =>
    intro starts h
    have he := h e (List.mem_cons_self e rest)
    rw [foldVids, if_pos he.1, if_pos he.2,
      ih _ (fun x hx => h x (List.mem_cons_of_mem e hx))]
    simp

theorem foldVids_firstBad (env : Env) (space : SpaceInfo) :
    ∀ (good : List Expression) (bad : Expression) (rest : List Expression) (starts : Starts),
      (∀ e ∈ good, env.evaluableExpr e = true ∧
        env.isValidVid (env.evalConst e) space.vidType = true) →
      ¬ (env.evaluableExpr bad = true ∧
        env.isValidVid (env.evalConst bad) space.vidType = true) →
      (∃ m, (foldVids env space (good ++ bad :: rest) starts).1 = Status.semanticError m) ∧
      (foldVids env space (good ++ bad :: rest) starts).2 =
        { starts with vids := starts.vids ++ good.map env.evalConst } := by
  intro good
  induction good with
  | nil =>
    intro bad rest starts _ hbad
    by_cases hev : env.evaluableExpr bad = true
    · have hvid : ¬ env.isValidVid (env.evalConst bad) space.vidType = true :=
        fun hv => hbad ⟨hev, hv⟩
      rw [List.nil_append, foldVids, if_pos hev, if_neg hvid]
      exact ⟨⟨_, rfl⟩, by simp⟩
    · rw [List.nil_append, foldVids, if_neg hev]
      exact ⟨⟨_, rfl⟩, by simp⟩
  | cons g gs ih =>
    intro bad rest starts hgood hbad
    have hg := hgood g (List.mem_cons_self g gs)
    rw [List.cons_append, foldVids, if_pos hg.1, if_pos hg.2]
    obtain ⟨⟨m, hm⟩, hshape⟩ :=
      ih bad rest { starts with vids := starts.vids ++ [env.evalConst g] }
        (fun x hx => hgood x (List.mem_cons_of_mem g hx)) hbad
    refine ⟨⟨m, hm⟩, ?_⟩
    rw [hshape]
    simp

/-- C2: for a reference-form start clause on an input-property or
variable-property expression whose type deduction succeeds: a deduced
type different from the schema vertex-id value type fails with an error
naming both the expected and the actual type; equal types succeed,
fromType is kPipe exactly for an input property and kVariable otherwise,
and in the kVariable case the bound symbol is recorded and added to the
referenced-variables list. -/
theorem C2_runtime_reference_type_check (env : Env) (space : SpaceInfo) (src : Expression)
    (starts : Starts) (userVars : List String) (ty : ValueType)
    (hkind : src.kind = ExprKind.kInputProperty ∨ src.kind = ExprKind.kVarProperty)
    (hded : env.deduceExprType src = Except.ok ty) :
    (ty ≠ propTypeToValueType space.vidType →
      (validateStarts env space (some (.ref src)) starts userVars).1 =
        Status.semanticError ("`" ++ src.render ++ "', the srcs should be type of " ++
          enumNameSafe space.vidType ++ ", but was`" ++ valueTypeToString ty ++ "'")) ∧
    (ty = propTypeToValueType space.vidType →
      (validateStarts env space (some (.ref src)) starts userVars).1 = Status.ok ∧
      (validateStarts env space (some (.ref src)) starts userVars).2.1.fromType =
        (if src.kind = ExprKind.kInputProperty then FromType.kPipe else FromType.kVariable) ∧
      (src.kind = ExprKind.kVarProperty →
        (validateStarts env space (some (.ref src)) starts userVars).2.1.userDefinedVarName =
          src.sym ∧
        src.sym ∈ (validateStarts env space (some (.ref src)) starts userVars).2.2)) := by
  have hguard : ¬ (src.kind ≠ ExprKind.kInputProperty ∧ src.kind ≠ ExprKind.kVarProperty) :=
    fun hc => hkind.elim (fun h => hc.1 h) (fun h => hc.2 h)
  constructor
  · intro hne
    simp only [validateStarts, if_neg hguard, hded]
    rw [if_pos hne]
  · intro heq
    simp only [validateStarts, if_neg hguard, hded]
    rw [if_neg (fun hc => hc heq)]
    refine ⟨rfl, ?_, ?_⟩
    · rcases hkind with h | h <;> simp [h]
    · intro hvar
      have hni : ¬ src.kind = ExprKind.kInputProperty := by rw [hvar]; intro hh; cases hh
      simp [hvar, hni]

theorem C2_runtime_reference_type_check_witness :
    (validateStarts testEnv testSpace (some (.ref (.varProperty "uv" "id"))) emptyStarts []).1 =
      Status.ok ∧
    (validateStarts testEnv testSpace
      (some (.ref (.varProperty "uv" "id"))) emptyStarts []).2.1.userDefinedVarName = "uv" ∧
    "uv" ∈ (validateStarts testEnv testSpace
      (some (.ref (.varProperty "uv" "id"))) emptyStarts []).2.2 := by
  have h := (C2_runtime_reference_type_check testEnv testSpace (.varProperty "uv" "id")
    emptyStarts [] ValueType.intT (Or.inr rfl) rfl).2 rfl
  exact ⟨h.1, (h.2.2 rfl).1, (h.2.2 rfl).2⟩

/-- C8: for a reference-form start clause whose expression kind is
neither input-property nor variable-property, validateStarts fails with a
semantic error whose message carries the offending expression's rendered
text, and never succeeds. -/
theorem C8_reference_wrong_kind (env : Env) (space : SpaceInfo) (src : Expression)
    (starts : Starts) (userVars : List String)
    (h1 : src.kind ≠ ExprKind.kInputProperty) (h2 : src.kind ≠ ExprKind.kVarProperty) :
    validateStarts env space (some (.ref src)) starts userVars =
      (Status.semanticError ("`" ++ src.render ++ "', Only input and variable expression is" ++
        " acceptable when starts are evaluated at runtime."), starts, userVars) ∧
    (validateStarts env space (some (.ref src)) starts userVars).1 ≠ Status.ok := by
  have hmain : validateStarts env space (some (.ref src)) starts userVars =
      (Status.semanticError ("`" ++ src.render ++ "', Only input and variable expression is" ++
        " acceptable when starts are evaluated at runtime."), starts, userVars) := by
    simp only [validateStarts]
    rw [if_pos ⟨h1, h2⟩]
  refine ⟨hmain, ?_⟩
  rw [hmain]
  exact fun hh => Status.noConfusion hh

theorem C8_reference_wrong_kind_witness :
    validateStarts testEnv testSpace (some (.ref (.constant (.i 3)))) emptyStarts [] =
      (Status.semanticError ("`" ++ (Expression.constant (.i 3)).render ++
        "', Only input and variable expression is" ++
        " acceptable when starts are evaluated at runtime."), emptyStarts, []) :=
  (C8_reference_wrong_kind testEnv testSpace (.constant (.i 3)) emptyStarts []
    (fun h => ExprKind.noConfusion h) (fun h => ExprKind.noConfusion h)).1

/-- C5: for a literal-list start clause in which every element is
constant-evaluable and every folded value passes the vertex-id validity
predicate, validateStarts succeeds and starts.vids receives the folded
values in input order, duplicates retained, with the same length as the
input list. -/
theorem C5_literal_vid_list (env : Env) (space : SpaceInfo) (exprs : List Expression)
    (starts : Starts) (userVars : List String)
    (h : ∀ e ∈ exprs, env.evaluableExpr e = true ∧
      env.isValidVid (env.evalConst e) space.vidType = true) :
    validateStarts env space (some (.vidList exprs)) starts userVars =
      (Status.ok, { starts with vids := starts.vids ++ exprs.map env.evalConst }, userVars) ∧
    (starts.vids = [] →
      (validateStarts env space (some (.vidList exprs)) starts userVars).2.1.vids =
        exprs.map env.evalConst ∧
      (validateStarts env space
        (some (.vidList exprs)) starts userVars).2.1.vids.length = exprs.length) := by
  have hmain : validateStarts env space (some (.vidList exprs)) starts userVars =
      (Status.ok, { starts with vids := starts.vids ++ exprs.map env.evalConst }, userVars) := by
    simp only [validateStarts]
    rw [foldVids_allValid env space exprs starts h]
  refine ⟨hmain, ?_⟩
  intro hnil
  rw [hmain]
  simp [hnil]

theorem C5_literal_vid_list_witness :
    validateStarts testEnv testSpace
      (some (.vidList [.constant (.i 1), .constant (.i 1), .constant (.i 5)]))
      emptyStarts [] =
      (Status.ok, { emptyStarts with
        vids := emptyStarts.vids ++
          ([Expression.constant (.i 1), .constant (.i 1), .constant (.i 5)].map
            testEnv.evalConst) }, []) :=
  (C5_literal_vid_list testEnv testSpace
    [.constant (.i 1), .constant (.i 1), .constant (.i 5)] emptyStarts [] (by decide)).1

/-- C4 counterexample: on the literal list (7, $x) the second element is
not evaluable, so validateStarts fails — but the folded value of the
first element remains appended to starts.vids, so the output StartSpec is
not left unchanged as the claim states. -/
theorem C4_counterexample :
    (validateStarts testEnv testSpace
      (some (.vidList [.constant (.i 7), .varE "x"])) emptyStarts []).1 =
      Status.semanticError "`$x' is not an evaluable expression." ∧
    emptyStarts.vids = [] ∧
    (validateStarts testEnv testSpace
      (some (.vidList [.constant (.i 7), .varE "x"])) emptyStarts []).2.1.vids =
      [Value.i 7] := by
  refine ⟨?_, rfl, ?_⟩ <;> decide

/-- C4 (amended): for every literal-list start clause containing an
element that is not constant-evaluable or whose folded value is not a
valid vertex id, validateStarts returns a SemanticError — terminal for the
clause — but the output StartSpec retains the folded values of the
elements preceding the first failing one appended to literal_ids. -/
theorem C4_failure_keeps_folded_values (env : Env) (space : SpaceInfo)
    (good : List Expression) (bad : Expression) (rest : List Expression)
    (starts : Starts) (userVars : List String)
    (hgood : ∀ e ∈ good, env.evaluableExpr e = true ∧
      env.isValidVid (env.evalConst e) space.vidType = true)
    (hbad : ¬ (env.evaluableExpr bad = true ∧
      env.isValidVid (env.evalConst bad) space.vidType = true)) :
    (∃ m, (validateStarts env space
      (some (.vidList (good ++ bad :: rest))) starts userVars).1 = Status.semanticError m) ∧
    (validateStarts env space (some (.vidList (good ++ bad :: rest))) starts userVars).2.1 =
      { starts with vids := starts.vids ++ good.map env.evalConst } ∧
    (validateStarts env space (some (.vidList (good ++ bad :: rest))) starts userVars).2.2 =
      userVars := by
  obtain ⟨⟨m, hm⟩, hshape⟩ := foldVids_firstBad env space good bad rest starts hgood hbad
  simp only [validateStarts]
  exact ⟨⟨m, hm⟩, by rw [hshape], by simp⟩

theorem C4_failure_keeps_folded_values_witness :
    (∃ m, (validateStarts testEnv testSpace
      (some (.vidList ([.constant (.i 7)] ++ Expression.varE "x" :: []))) emptyStarts []).1 =
      Status.semanticError m) ∧
    (validateStarts testEnv testSpace
      (some (.vidList ([.constant (.i 7)] ++ Expression.varE "x" :: []))) emptyStarts []).2.1 =
      { emptyStarts with
        vids := emptyStarts.vids ++ ([Expression.constant (.i 7)].map testEnv.evalConst) } :=
  ⟨(C4_failure_keeps_folded_values testEnv testSpace [.constant (.i 7)] (.varE "x") []
      emptyStarts [] (by decide) (by decide)).1,
   (C4_failure_keeps_folded_values testEnv testSpace [.constant (.i 7)] (.varE "x") []
      emptyStarts [] (by decide) (by decide)).2.1⟩

theorem resolveEdgeTypes_allOk (env : Env) (space : SpaceInfo) (w : Bool)
    (names : List String) :
    ∀ over : Over,
      (∀ n ∈ names, ∃ t, env.toEdgeType space.id n = Except.ok t) →
      resolveEdgeTypes env space w names over =
        (Status.ok,
         { over with edgeTypes := over.edgeTypes ++ names.map (edgeTypeOf env space) }) := by
  induction names with
  | nil => intro over _; simp [resolveEdgeTypes]
  | cons n rest ih =>
    intro over h
    obtain ⟨t, ht⟩ := h n (List.mem_cons_self n rest)
    simp only [resolveEdgeTypes, ht]
    rw [ih _ (fun x hx => h x (List.mem_cons_of_mem n hx))]
    have hn : edgeTypeOf env space n = t := by simp [edgeTypeOf, ht]
    simp [hn, List.append_assoc]

theorem resolveEdgeTypes_firstBad (env : Env) (space : SpaceInfo) (w : Bool) :
    ∀ (good : List String) (bad : String) (rest : List String) (over : Over),
      (∀ n ∈ good, ∃ t, env.toEdgeType space.id n = Except.ok t) →
      (∃ e, env.toEdgeType space.id bad = Except.error e) →
      resolveEdgeTypes env space w (good ++ bad :: rest) over =
        (Status.semanticError (if w then
            "`" ++ bad ++ "' not found in space [`" ++ space.name ++ "']."
          else bad ++ " not found in space [" ++ space.name ++ "]."),
         { over with edgeTypes := over.edgeTypes ++ good.map (edgeTypeOf env space) }) := by
  intro good
  induction good with
  | nil =>
    intro bad rest over _ hbad
    obtain ⟨e, he⟩ := hbad
    rw [List.nil_append]
    simp only [resolveEdgeTypes, he]
    simp
  | cons g gs ih =>
    intro bad rest over hgood hbad
    obtain ⟨t, ht⟩ := hgood g (List.mem_cons_self g gs)
    rw [List.cons_append]
    simp only [resolveEdgeTypes, ht]
    rw [ih bad rest _ (fun x hx => hgood x (List.mem_cons_of_mem g hx)) hbad]
    have hg : edgeTypeOf env space g = t := by simp [edgeTypeOf, ht]
    simp [hg, List.append_assoc]

/-- C3 counterexample: an explicit (non-wildcard) OVER clause naming zero
edges passes validateOver successfully while leaving edge_type_ids empty,
so the claimed invariant does not cover every successful call. -/
theorem C3_counterexample :
    (validateOver testEnv testSpace (some ⟨.outEdge, false, []⟩) emptyOver).1 = Status.ok ∧
    (validateOver testEnv testSpace (some ⟨.outEdge, false, []⟩) emptyOver).2.edgeTypes = [] := by
  constructor <;> decide

theorem resolveEdgeTypes_ok_shape (env : Env) (space : SpaceInfo) (w : Bool) :
    ∀ (names : List String) (over over2 : Over),
      resolveEdgeTypes env space w names over = (Status.ok, over2) →
      over2.edgeTypes = over.edgeTypes ++ names.map (edgeTypeOf env space) := by
  intro names
  induction names with
  | nil =>
    intro over over2 h
    simp only [resolveEdgeTypes] at h
    rw [← (Prod.mk.inj h).2]
    simp
  | cons n rest ih =>
    intro over over2 h
    cases ht : env.toEdgeType space.id n with
    | error e =>
      rw [resolveEdgeTypes] at h
      rw [ht] at h
      exact absurd (Prod.mk.inj h).1 (fun hh => Status.noConfusion hh)
    | ok t =>
      rw [resolveEdgeTypes] at h
      rw [ht] at h
      have := ih _ _ h
      rw [this]
      have hn : edgeTypeOf env space n = t := by simp [edgeTypeOf, ht]
      simp [hn, List.append_assoc]

/-- C3 (amended): after every successful call of validateOver on a fresh
Over record, edge_type_ids is non-empty provided the clause is a wildcard
or names at least one edge; in particular a space with zero edge types is
rejected in the wildcard case.  (An explicit clause naming zero edges
succeeds with empty edge_type_ids.) -/
theorem C3_edge_types_nonempty (env : Env) (space : SpaceInfo) (c : OverClauseData)
    (over : Over) (hempty : over.edgeTypes = [])
    (hne : c.isOverAll = true ∨ c.edges ≠ [])
    (hok : (validateOver env space (some c) over).1 = Status.ok) :
    (validateOver env space (some c) over).2.edgeTypes ≠ [] := by
  cases hall : c.isOverAll with
  | false =>
    have hedge : c.edges ≠ [] := by
      rcases hne with h | h
      · rw [hall] at h; exact absurd h (by simp)
      · exact h
    have hv : validateOver env space (some c) over =
        resolveEdgeTypes env space false c.edges { over with direction := c.direction } := by
      simp [validateOver, hall]
    rw [hv] at hok ⊢
    rcases hres : resolveEdgeTypes env space false c.edges
      { over with direction := c.direction } with ⟨st, over2⟩
    rw [hres] at hok
    have hst : st = Status.ok := hok
    rw [hst] at hres
    have hshape := resolveEdgeTypes_ok_shape env space false c.edges _ over2 hres
    show over2.edgeTypes ≠ []
    rw [hshape, show ({ over with direction := c.direction } : Over).edgeTypes =
      over.edgeTypes from rfl, hempty]
    simpa [List.map_eq_nil_iff] using hedge
  | true =>
    cases hedges : env.getAllEdge space.id with
    | error st =>
      have hv : validateOver env space (some c) over =
          (Status.error st, { over with direction := c.direction }) := by
        simp [validateOver, hall, hedges]
      rw [hv] at hok
      exact Status.noConfusion hok
    | ok edges =>
      by_cases hnil : edges = []
      · have hv : validateOver env space (some c) over =
            (Status.semanticError ("No edge type found in space `" ++ space.name ++ "'"),
             { over with direction := c.direction }) := by
          simp [validateOver, hall, hedges, hnil]
        rw [hv] at hok
        exact Status.noConfusion hok
      · rcases hres : resolveEdgeTypes env space true edges
          { over with direction := c.direction } with ⟨st, over2⟩
        cases st with
        | ok =>
          have hv : validateOver env space (some c) over =
              (Status.ok, { over2 with allEdges := edges, isOverAll := true }) := by
            simp [validateOver, hall, hedges, hnil, hres]
          rw [hv]
          have hshape := resolveEdgeTypes_ok_shape env space true edges _ over2 hres
          show over2.edgeTypes ≠ []
          rw [hshape, show ({ over with direction := c.direction } : Over).edgeTypes =
            over.edgeTypes from rfl, hempty]
          simpa [List.map_eq_nil_iff] using hnil
        | semanticError m =>
          have hv : validateOver env space (some c) over = (Status.semanticError m, over2) := by
            simp [validateOver, hall, hedges, hnil, hres]
          rw [hv] at hok
          exact Status.noConfusion hok
        | error m =>
          have hv : validateOver env space (some c) over = (Status.error m, over2) := by
            simp [validateOver, hall, hedges, hnil, hres]
          rw [hv] at hok
          exact Status.noConfusion hok

theorem C3_edge_types_nonempty_witness :
    (validateOver testEnv testSpace (some ⟨.outEdge, true, []⟩) emptyOver).2.edgeTypes ≠ [] :=
  C3_edge_types_nonempty testEnv testSpace ⟨.outEdge, true, []⟩ emptyOver rfl (Or.inl rfl)
    (by decide)

/-- C6: for an explicit (non-wildcard) edge clause, if all named edges
resolve through the catalog then validateOver succeeds and edgeTypes
receives the resolved ids in clause order (length N on a fresh Over); if
some named edge does not resolve, validateOver fails with an error naming
the first unresolvable edge and the space, and the outcome is the same as
if the edges after it were not in the clause at all (fail-fast). -/
theorem C6_explicit_edge_resolution (env : Env) (space : SpaceInfo) (c : OverClauseData)
    (over : Over) (hexp : c.isOverAll = false) :
    ((∀ n ∈ c.edges, ∃ t, env.toEdgeType space.id n = Except.ok t) →
      validateOver env space (some c) over =
        (Status.ok, { direction := c.direction,
                      edgeTypes := over.edgeTypes ++ c.edges.map (edgeTypeOf env space),
                      allEdges := over.allEdges, isOverAll := over.isOverAll }) ∧
      (over.edgeTypes = [] →
        (validateOver env space (some c) over).2.edgeTypes.length = c.edges.length)) ∧
    (∀ good bad rest, c.edges = good ++ bad :: rest →
      (∀ n ∈ good, ∃ t, env.toEdgeType space.id n = Except.ok t) →
      (∃ e, env.toEdgeType space.id bad = Except.error e) →
      (validateOver env space (some c) over).1 =
        Status.semanticError (bad ++ " not found in space [" ++ space.name ++ "].") ∧
      validateOver env space (some c) over =
        validateOver env space (some { c with edges := good ++ [bad] }) over) := by
  have hv : validateOver env space (some c) over =
      resolveEdgeTypes env space false c.edges { over with direction := c.direction } := by
    simp [validateOver, hexp]
  constructor
  · intro hall
    have h1 := resolveEdgeTypes_allOk env space false c.edges
      { over with direction := c.direction } hall
    constructor
    · rw [hv, h1]
    · intro hnil
      rw [hv, h1]
      simp [show ({ over with direction := c.direction } : Over).edgeTypes =
        over.edgeTypes from rfl, hnil]
  · intro good bad rest hsplit hgood hbad
    have h2 := resolveEdgeTypes_firstBad env space false good bad rest
      { over with direction := c.direction } hgood hbad
    have hv2 : validateOver env space (some { c with edges := good ++ [bad] }) over =
        resolveEdgeTypes env space false (good ++ [bad])
          { over with direction := c.direction } := by
      simp [validateOver, hexp]
    constructor
    · rw [hv, hsplit, h2]
      simp
    · rw [hv, hsplit, h2, hv2,
        resolveEdgeTypes_firstBad env space false good bad []
          { over with direction := c.direction } hgood hbad]

theorem C6_explicit_edge_resolution_witness :
    validateOver testEnv testSpace (some ⟨.outEdge, false, ["follow", "like"]⟩) emptyOver =
      (Status.ok, { direction := Direction.outEdge,
                    edgeTypes := emptyOver.edgeTypes ++
                      (["follow", "like"].map (edgeTypeOf testEnv testSpace)),
                    allEdges := emptyOver.allEdges,
                    isOverAll := emptyOver.isOverAll }) :=
  ((C6_explicit_edge_resolution testEnv testSpace ⟨.outEdge, false, ["follow", "like"]⟩
    emptyOver rfl).1 (by
      rintro n hn
      simp only [List.mem_cons, List.not_mem_nil, or_false] at hn
      rcases hn with rfl | rfl
      · exact ⟨2, rfl⟩
      · exact ⟨3, rfl⟩)).1

/-- C7: for a non-null step clause: a range form with lower bound 0 has it
normalized to 1; after normalization an upper bound below the lower bound
fails with a semantic error rendering the (normalized) clause, otherwise
the range is accepted; a fixed single-value clause succeeds unchanged —
lower, upper and value coincide — bypassing both checks. -/
theorem C7_step_range (c : StepClause) (step0 : StepClause) :
    (c.isMToN = true → c.mSteps = 0 → (validateStep (some c) step0).2.mSteps = 1) ∧
    (c.isMToN = true →
      (c.nSteps < (if c.mSteps = 0 then 1 else c.mSteps) →
        (validateStep (some c) step0).1 =
          Status.semanticError ("`" ++
            ({ c with mSteps := if c.mSteps = 0 then 1 else c.mSteps } : StepClause).render ++
            "', upper bound steps should be greater than lower bound.")) ∧
      (¬ c.nSteps < (if c.mSteps = 0 then 1 else c.mSteps) →
        (validateStep (some c) step0).1 = Status.ok ∧
        (validateStep (some c) step0).2.mSteps = (if c.mSteps = 0 then 1 else c.mSteps) ∧
        (validateStep (some c) step0).2.nSteps = c.nSteps)) ∧
    (c.isMToN = false → validateStep (some c) step0 = (Status.ok, c)) := by
  obtain ⟨cm, cn, cmn⟩ := c
  refine ⟨?_, ?_, ?_⟩
  · intro hmn hm0
    subst hmn
    simp only at hm0
    subst hm0
    by_cases hlt : cn < 1 <;> simp [validateStep, hlt]
  · intro hmn
    subst hmn
    constructor
    · intro hlt
      by_cases hm0 : cm = 0
      · subst hm0
        have hzero : cn = 0 := by simpa [Nat.lt_one_iff] using hlt
        subst hzero
        simp [validateStep]
      · simp only [if_neg hm0] at hlt
        simp [validateStep, hm0, hlt]
    · intro hge
      by_cases hm0 : cm = 0
      · subst hm0
        have hne : cn ≠ 0 := by simpa [Nat.lt_one_iff] using hge
        simp [validateStep, hne]
      · simp only [if_neg hm0] at hge
        simp [validateStep, hm0, hge]
  · intro hmn
    simp only at hmn
    subst hmn
    simp [validateStep]

theorem C7_step_range_witness :
    (validateStep (some ⟨0, 3, true⟩) ⟨0, 0, false⟩).2.mSteps = 1 ∧
    validateStep (some ⟨7, 7, false⟩) ⟨0, 0, false⟩ = (Status.ok, ⟨7, 7, false⟩) :=
  ⟨(C7_step_range ⟨0, 3, true⟩ ⟨0, 0, false⟩).1 rfl rfl,
   (C7_step_range ⟨7, 7, false⟩ ⟨0, 0, false⟩).2.2 rfl⟩

end NebulaGraph
